import Mathlib

/-!
Verification development for the miniwdl-aws job coordination core
(`miniwdl_aws/batch_job.py` and `miniwdl_aws/cli_submit.py`).

We shallowly embed four components:

* the shared `BatchJobDescriber` (staleness heap `job_queue` + mapping `jobs`,
  operations `describe`/`unsubscribe`/`_update`),
* the per-job polling state machine of `BatchJob._await_batch_job`,
* the submission rate limiter in `BatchJob._run`,
* `CloudWatchLogsFollower.new_events` from `cli_submit.py`.

Job ids (Python strings) are modelled as `Nat`; wall-clock times (Python floats
from `time.time()`) are modelled as `Nat` (the code only compares and subtracts
them, and `a - b >= p` is rendered as `b + p ≤ a` to avoid truncated
subtraction).  The Python heap (`heapq`) is modelled by its observable
behaviour: a multiset of `(timestamp, job_id)` pairs from which `heappop`
extracts the lexicographically least element.  The Python dict `self.jobs` is
modelled as an association list with first-match lookup.  Each Lean operation
corresponds to one critical section of the Python code (the code holds
`self.lock` for the whole section, so the sequential small-step model is
faithful to the concurrent program).
-/

/-- One AWS Batch job description, as returned by `DescribeJobs`.  `jobId`
mirrors `job_desc["jobId"]`; `payload` abstracts the remaining fields of the
description (status, container, ...), which `BatchJobDescriber` stores but
never inspects. -/
structure JobDesc where
  jobId : Nat
  payload : Nat
deriving DecidableEq

/-- The `self.jobs` dict of `BatchJobDescriber`: job id ↦ latest description,
`none` standing for Python `None` (subscribed but not yet described). -/
abbrev Jobs := List (Nat × Option JobDesc)

/-- Python `job_id in self.jobs`. -/
def jobsHas (jobs : Jobs) (j : Nat) : Bool :=
  jobs.any (fun kv => kv.1 == j)

/-- Python `self.jobs[job_id]` (first-match lookup; `none` = key absent). -/
def jobsGet : Jobs → Nat → Option (Option JobDesc)
  | [], _ => none
  | kv :: rest, j => if kv.1 == j then some kv.2 else jobsGet rest j

/-- Python `self.jobs[job_id] = d`: replace the entry if the key is present,
append it otherwise. -/
def jobsSet (jobs : Jobs) (j : Nat) (d : Option JobDesc) : Jobs :=
  if jobsHas jobs j then
    jobs.map (fun kv => if kv.1 == j then (j, d) else kv)
  else
    jobs ++ [(j, d)]

/-- Python `del self.jobs[job_id]` (combined with the guarding membership
test, deleting nothing when the key is absent). -/
def jobsErase (jobs : Jobs) (j : Nat) : Jobs :=
  jobs.filter (fun kv => kv.1 != j)

/-- State of the `BatchJobDescriber` singleton: `last_request_time`,
the staleness heap `job_queue` of `(timestamp, job_id)` pairs, and the
`jobs` mapping. -/
structure DescSt where
  lastReq : Nat
  queue : List (Nat × Nat)
  jobs : Jobs
deriving DecidableEq

/-- Lexicographic comparison on `(timestamp, job_id)` pairs, as used by
`heapq` on Python tuples. -/
def pairLeB (a b : Nat × Nat) : Bool :=
  a.1 < b.1 || (a.1 == b.1 && a.2 ≤ b.2)

/-- The least element of the heap (what `heapq.heappop` returns). -/
def heapMin (q : List (Nat × Nat)) : Option (Nat × Nat) :=
  q.foldl (fun acc x =>
    match acc with
    | none => some x
    | some m => if pairLeB x m then some x else some m) none

/-- Remove the first occurrence of a value from the heap (the removal effect
of `heapq.heappop`, which extracts one copy of the least element). -/
def eraseFirst : List (Nat × Nat) → (Nat × Nat) → List (Nat × Nat)
  | [], _ => []
  | x :: xs, m => if x = m then xs else x :: eraseFirst xs m

/-- The pop loop of `BatchJobDescriber._update` (lines 449–453):

    while self.job_queue and len(job_ids) < self.JOBS_PER_REQUEST:
        job_id = heapq.heappop(self.job_queue)[1]
        assert job_id not in job_ids
        if job_id in self.jobs:
            job_ids.add(job_id)

returns `(job_ids, remaining queue, fault?)`, where `fault?` is the message of
a failed `assert`.  The fuel argument is instantiated with the queue length,
which bounds the number of iterations since each pop removes one element. -/
def popBatch : Nat → List (Nat × Nat) → Jobs → List Nat →
    List Nat × List (Nat × Nat) × Option String
  | 0, q, _, acc => (acc, q, none)
  | fuel + 1, q, jobs, acc =>
    if q.isEmpty || 100 ≤ acc.length then (acc, q, none)
    else
      match heapMin q with
      | none => (acc, q, none)
      | some m =>
        if m.2 ∈ acc then
          (acc, eraseFirst q m, some "assert job_id not in job_ids")
        else if jobsHas jobs m.2 then
          popBatch fuel (eraseFirst q m) jobs (acc ++ [m.2])
        else
          popBatch fuel (eraseFirst q m) jobs acc

/-- The response-processing loop of `_update` (lines 465–467):

    for job_desc in job_descs["jobs"]:
        job_ids.remove(job_desc["jobId"])
        self.jobs[job_desc["jobId"]] = job_desc

returns `(remaining job_ids, updated jobs, fault?)`; `fault?` is the `KeyError`
raised by `set.remove` when a returned id is not among the requested ones. -/
def processResp : List Nat → Jobs → List JobDesc →
    List Nat × Jobs × Option String
  | ids, jobs, [] => (ids, jobs, none)
  | ids, jobs, d :: ds =>
    if d.jobId ∈ ids then
      processResp (ids.erase d.jobId) (jobsSet jobs d.jobId (some d)) ds
    else
      (ids, jobs, some "KeyError: jobId not in requested job_ids")

/-- The re-enqueue loop in the `finally:` block of `_update` (lines 462–463):
push `(self.last_request_time, job_id)` for every popped id. -/
def reenqueue (now : Nat) (ids : List Nat) (q : List (Nat × Nat)) :
    List (Nat × Nat) :=
  ids.foldl (fun q2 j => (now, j) :: q2) q

/-- Outcome of one `_update` call. `fault` covers every failed assertion and
the `KeyError` (all of which propagate out of `describe` in Python). -/
inductive UpOutcome
  | skipped
  | emptyBatch
  | ok
  | apiError
  | fault (msg : String)
deriving DecidableEq

/-- Whether the outcome is an integrity fault. -/
def UpOutcome.isFault : UpOutcome → Bool
  | .fault _ => true
  | _ => false

/-- `BatchJobDescriber._update(aws_batch, period)` (lines 443–468), called at
time `now`.  `resp` is the result of the `aws_batch.describe_jobs` call:
`none` models a raised `ClientError`, `some ds` the returned `jobs` list.
Returns the new state, the outcome, and the set of requested job ids (the
`job_ids` batch; `[]` when no bulk call was attempted).  On `fault` the state
reflects the mutations performed before the exception was raised, as in
Python. -/
def update (now period : Nat) (resp : Option (List JobDesc)) (s : DescSt) :
    DescSt × UpOutcome × List Nat :=
  if s.lastReq + period ≤ now then
    if s.queue.isEmpty then
      (s, .fault "assert self.job_queue", [])
    else
      match popBatch s.queue.length s.queue s.jobs [] with
      | (ids, q1, some m) => ({ s with queue := q1 }, .fault m, ids)
      | (ids, q1, none) =>
        if ids.isEmpty then ({ s with queue := q1 }, .emptyBatch, [])
        else
          match resp with
          | none =>
            ({ s with lastReq := now, queue := reenqueue now ids q1 },
             .apiError, ids)
          | some ds =>
            match processResp ids s.jobs ds with
            | (_, jobs1, some m) =>
              ({ s with lastReq := now, queue := reenqueue now ids q1,
                        jobs := jobs1 },
               .fault m, ids)
            | (rem, jobs1, none) =>
              if rem.isEmpty then
                ({ s with lastReq := now, queue := reenqueue now ids q1,
                          jobs := jobs1 },
                 .ok, ids)
              else
                ({ s with lastReq := now, queue := reenqueue now ids q1,
                          jobs := jobs1 },
                 .fault "AWS Batch DescribeJobs didn't return all expected results",
                 ids)
  else
    (s, .skipped, [])

/-- The subscription step at the top of `BatchJobDescriber.describe`
(lines 422–425): register a new job to be described ASAP, pushing `(0.0,
job_id)` and setting `self.jobs[job_id] = None`. -/
def subscribe (j : Nat) (s : DescSt) : DescSt :=
  if jobsHas s.jobs j then s
  else { s with queue := (0, j) :: s.queue, jobs := s.jobs ++ [(j, none)] }

/-- `BatchJobDescriber.unsubscribe(job_id)` (lines 435–441): delete the id
from `self.jobs` if present.  The staleness queue is not touched. -/
def unsubscribe (j : Nat) (s : DescSt) : DescSt :=
  { s with jobs := jobsErase s.jobs j }

/-- One critical section executed against the describer: either one iteration
of the loop body of `describe` (subscribe if new, then `_update`), or an
`unsubscribe` call. -/
inductive DOp
  | describeIter (j now period : Nat) (resp : Option (List JobDesc))
  | unsub (j : Nat)

/-- Whether the operation is a `describe` iteration for handle `j`. -/
def DOp.describes : DOp → Nat → Bool
  | .describeIter j2 _ _ _, j => j2 == j
  | .unsub _, _ => false

/-- Execute one describer operation; returns the new state, the `_update`
outcome (`skipped` for a bare `unsubscribe`), and the batch of job ids
requested from the bulk `DescribeJobs` call (empty if no call was issued). -/
def stepOp : DOp → DescSt → DescSt × UpOutcome × List Nat
  | .describeIter j now period resp, s => update now period resp (subscribe j s)
  | .unsub j, s => (unsubscribe j s, .skipped, [])

/-- Run a sequence of describer operations, collecting the requested batch of
every step. -/
def runTrace : List DOp → DescSt → DescSt × List (List Nat)
  | [], s => (s, [])
  | op :: ops, s =>
    ((runTrace ops (stepOp op s).1).1,
     (stepOp op s).2.2 :: (runTrace ops (stepOp op s).1).2)

/-- The describer state as constructed by `BatchJobDescriber.__init__`. -/
def initDescSt : DescSt := ⟨0, [], []⟩

/-- The invariant that actually holds of the describer state: every handle
present in the `jobs` mapping appears at least once in the staleness queue
(stale or duplicate queue entries for absent handles are permitted, since
`unsubscribe` leaves the queue untouched). -/
def QueueCovers (s : DescSt) : Prop :=
  ∀ j, jobsHas s.jobs j = true → ∃ p, (p, j) ∈ s.queue

/-!
The Job Watcher: `BatchJob._await_batch_job` (batch_job.py lines 319–398).
One loop iteration processes one job description returned by the describer
together with the value of `terminating()` observed at the bottom of the
iteration.  Log-file side effects (`poll_stderr`, the status bar, logging)
have no bearing on the claims and are omitted.
-/

/-- The `"container"` sub-dict of a Batch job description, with the three
keys the watcher reads. -/
structure ContainerInfo where
  reason : Option String
  logStreamName : Option String
  exitCode : Option Int
deriving DecidableEq

/-- A Batch job description as seen by `_await_batch_job`: `job_desc["status"]`,
optional `job_desc["statusReason"]`, optional `job_desc["container"]`. -/
structure WDesc where
  status : String
  statusReason : Option String
  container : Option ContainerInfo
deriving DecidableEq

/-- Per-watcher state: `self._observed_states` (insertion-ordered set) and
`self._logStreamName`. -/
structure WatcherSt where
  observed : List String
  logStream : Option String
deriving DecidableEq

/-- Terminal outcome of the polling loop:
`exited c` = `return exit_code`, `interrupted` = `raise WDL.runtime.Interrupted`,
`failedNoCode` = `raise WDL.Error.RuntimeError("AWS Batch job failed")`,
`terminated quiet` = `raise WDL.runtime.Terminated(quiet=...)` right after the
`aws_batch.terminate_job` request, `fault` = the failed
`assert isinstance(exit_code, int) and exit_code != 0`. -/
inductive AwaitOutcome
  | exited (code : Int)
  | interrupted
  | failedNoCode
  | terminated (quiet : Bool)
  | fault
deriving DecidableEq

/-- Whether `needle` occurs as a contiguous subsequence of `hay`. -/
def containsSeq : List Char → List Char → Bool
  | [], needle => needle.isEmpty
  | c :: t, needle => needle.isPrefixOf (c :: t) || containsSeq t needle

/-- Python's substring test `needle in hay`. -/
def strContains (hay needle : String) : Bool :=
  containsSeq hay.toList needle.toList

/-- Line 378: `status_reason and "Host EC2" in status_reason and "terminated"
in status_reason` (an absent or empty `statusReason` is falsy). -/
def hostTerminated : Option String → Bool
  | none => false
  | some r => r ≠ "" && strContains r "Host EC2" && strContains r "terminated"

/-- Line 383: `"exitCode" in job_desc.get("container", {})`, paired with the
read on line 387. -/
def descExitCode (d : WDesc) : Option Int :=
  match d.container with
  | none => none
  | some c => c.exitCode

/-- Lines 333–334: remember the log stream name when the description carries
one. -/
def lsUpdate (s : WatcherSt) (d : WDesc) : Option String :=
  match d.container with
  | some c =>
    match c.logStreamName with
    | some n => some n
    | none => s.logStream
  | none => s.logStream

/-- Lines 335–336: `self._observed_states.add(job_status)` (a set). -/
def obsInsert (obs : List String) (st : String) : List String :=
  if st ∈ obs then obs else obs ++ [st]

/-- The pre-execution states of line 395. -/
def preExecSet : List String := ["SUBMITTED", "PENDING", "RUNNABLE", "STARTING"]

/-- Line 394: `not self._observed_states.difference({...})` — true iff the
observed-status set contains nothing beyond the pre-execution states. -/
def preExecOnly (obs : List String) : Bool :=
  obs.all (fun st => preExecSet.contains st)

/-- One iteration of the polling loop of `_await_batch_job` (lines 329–397),
processing description `d` with `terminating() = term` at the bottom of the
iteration.  Returns the new watcher state and `some outcome` when the loop
ends this iteration (an exception raised or `exit_code` set), `none` when it
continues.  The `Interrupted`/`RuntimeError` raises and the failed assert
happen before the `terminating()` check; a true `terminating()` overrides a
pending nonzero/zero `exit_code` return. -/
def awaitStep (s : WatcherSt) (d : WDesc) (term : Bool) :
    WatcherSt × Option AwaitOutcome :=
  let s1 : WatcherSt := ⟨obsInsert s.observed d.status, lsUpdate s d⟩
  if d.status = "FAILED" ∧ hostTerminated d.statusReason = true then
    (s1, some .interrupted)
  else if d.status = "FAILED" ∧ descExitCode d = none then
    (s1, some .failedNoCode)
  else if d.status = "FAILED" ∧ descExitCode d = some 0 then
    (s1, some .fault)
  else if term then
    (s1, some (.terminated (preExecOnly (obsInsert s.observed d.status))))
  else if d.status = "SUCCEEDED" then
    (s1, some (.exited 0))
  else if d.status = "FAILED" then
    match descExitCode d with
    | some c => (s1, some (.exited c))
    | none => (s1, some .failedNoCode)
  else
    (s1, none)

/-- Run the polling loop over a scripted sequence of (description,
terminating) observations; `none` means the script ended with the loop still
polling. -/
def awaitRun : WatcherSt → List (WDesc × Bool) → WatcherSt × Option AwaitOutcome
  | s, [] => (s, none)
  | s, (d, t) :: rest =>
    match awaitStep s d t with
    | (s1, some out) => (s1, some out)
    | (s1, none) => awaitRun s1 rest

/-- Fold `obsInsert` over the statuses of a list of descriptions. -/
def obsAll (obs : List String) (ds : List WDesc) : List String :=
  ds.foldl (fun o p => obsInsert o p.status) obs

/-- The watcher state at the start of `_run` (`self._observed_states = set()`,
`self._logStreamName = None`). -/
def initWatcherSt : WatcherSt := ⟨[], none⟩

/-- Helper for scripted watcher inputs: a description carrying only a status. -/
def wdOf (st : String) : WDesc := ⟨st, none, none⟩

/-!
The submission rate limiter in `BatchJob._run` (batch_job.py lines 173–183).
Each `GateEvent` is one acquisition of `self._submit_lock`: the condition
`time.time() - self._last_submit_time[0] >= submit_period` is checked at
`checkTime`, and a granted submission records the later `time.time()` reading
`recordTime` into `self._last_submit_time[0]`.  The lock serializes the
critical sections across threads, so the event list models the interleaving
of all submitting threads of the process.
-/

/-- Outcome of one lock acquisition of the submit throttle: `cancelled` =
`raise WDL.runtime.Terminated(quiet=True)`, `granted` = submit and break,
`retry` = release the lock, `time.sleep(submit_period / 4)`, and try again. -/
inductive GateOut
  | cancelled
  | granted
  | retry
deriving DecidableEq

/-- The body of one throttle acquisition (lines 176–182). -/
def gateCheck (period last now : Nat) (term : Bool) : GateOut :=
  if term then .cancelled
  else if last + period ≤ now then .granted
  else .retry

/-- One acquisition of the submit lock: check time, the `terminating()`
value, and — for granted attempts — the timestamp recorded after the
submission. -/
structure GateEvent where
  checkTime : Nat
  term : Bool
  recordTime : Nat
deriving DecidableEq

/-- Run a sequence of throttle acquisitions, threading
`self._last_submit_time[0]`; returns the final timestamp and the
`(checkTime, recordTime)` pair of every granted submission, in order. -/
def gateRun (period : Nat) : Nat → List GateEvent → Nat × List (Nat × Nat)
  | last, [] => (last, [])
  | last, e :: es =>
    match gateCheck period last e.checkTime e.term with
    | .granted =>
      ((gateRun period e.recordTime es).1,
       (e.checkTime, e.recordTime) :: (gateRun period e.recordTime es).2)
    | _ => gateRun period last es

/-!
The log follower: `CloudWatchLogsFollower` (cli_submit.py lines 398–439).
A call to `new_events()` performs paginated `filter_log_events` fetches; we
model the pages the service returned for this call as data (`Fetch.pages`),
with `notFoundInterrupt = true` when the next page request raised
`ResourceNotFoundException` (for a stream that does not exist yet this is the
first request, so `pages = []`).  The caller iterates the generator to
exhaustion, so a call is modelled as a function from the cursor state and the
fetched pages to the list of yielded events and the new cursor state.
-/

/-- One CloudWatch log event: `timestamp`, `eventId`, `message`. -/
structure LogEvent where
  timestamp : Nat
  eventId : Nat
  message : String
deriving DecidableEq

/-- The follower's cursor: `self._newest_timestamp` and
`self._newest_event_ids`. -/
structure FollowerSt where
  newestTimestamp : Option Nat
  newestEventIds : List Nat
deriving DecidableEq

/-- The cursor as constructed by `CloudWatchLogsFollower.__init__`
(lines 406–407). -/
def followerInit : FollowerSt := ⟨none, []⟩

/-- The pages returned by the paginated `filter_log_events` calls of one
`new_events()` invocation, and whether pagination was cut short by
`ResourceNotFoundException`. -/
structure Fetch where
  pages : List (List LogEvent)
  notFoundInterrupt : Bool
deriving DecidableEq

/-- Concatenation of all fetched pages. -/
def concatAll : List (List LogEvent) → List LogEvent
  | [] => []
  | p :: ps => p ++ concatAll ps

/-- The per-event filter of lines 429–431: an event is yielded iff its id is
not recorded in `self._newest_event_ids` (which is not modified during the
call). -/
def yieldPage (seen : List Nat) (page : List LogEvent) : List LogEvent :=
  page.filter (fun e => !(seen.contains e.eventId))

/-- The events yielded by one call across all its pages, in order. -/
def yieldedEvents (s : FollowerSt) (pages : List (List LogEvent)) :
    List LogEvent :=
  pages.foldl (fun acc page => acc ++ yieldPage s.newestEventIds page) []

/-- `max(event_ids_per_timestamp.keys())` over the yielded events
(line 438); only used when at least one event was yielded. -/
def maxTs (l : List LogEvent) : Nat :=
  l.foldl (fun a e => max a e.timestamp) 0

/-- `CloudWatchLogsFollower.new_events` (lines 410–439): yield every fetched
event whose id is not in `_newest_event_ids`; if pagination was interrupted
by `ResourceNotFoundException` the generator returns before the cursor
update (lines 421–422); otherwise, if at least one event was yielded, set
`_newest_timestamp` to the maximum yielded timestamp and `_newest_event_ids`
to the ids of the yielded events carrying that timestamp (lines 437–439). -/
def new_events (s : FollowerSt) (f : Fetch) : List LogEvent × FollowerSt :=
  if f.notFoundInterrupt then (yieldedEvents s f.pages, s)
  else if (yieldedEvents s f.pages).isEmpty then (yieldedEvents s f.pages, s)
  else
    (yieldedEvents s f.pages,
     ⟨some (maxTs (yieldedEvents s f.pages)),
      ((yieldedEvents s f.pages).filter
        (fun e => e.timestamp == maxTs (yieldedEvents s f.pages))).map
        (fun e => e.eventId)⟩)

/-- The events the service returns for one call: all current stream events
with timestamp at least the cursor's `startTime` (lines 416–417: `startTime`
is set to `_newest_timestamp` when present, so the filter is inclusive), in
stream order. -/
def visibleEvents (s : FollowerSt) (stream : List LogEvent) : List LogEvent :=
  match s.newestTimestamp with
  | none => stream
  | some t => stream.filter (fun e => decide (t ≤ e.timestamp))

/-- C1 (counterexample). The claim asserts that every operation preserves the
invariant "every JobHandle present in the mapping appears exactly once in the
staleness ordering" and that `unsubscribe` removes the handle from both the
queue and the mapping.  Both parts fail on the code: `unsubscribe` deletes
only from `self.jobs` and never touches `self.job_queue` (batch_job.py lines
439–441), so after `describe`-subscribing job 5 (while the rate limit makes
`_update` skip) and then unsubscribing it, the stale entry `(0, 5)` is still
queued; re-subscribing 5 then pushes a second entry, leaving 5 present in the
mapping but appearing twice in the queue. -/
theorem unsubscribe_leaves_queue_entry_cex :
    (jobsHas (runTrace [DOp.describeIter 5 0 10 none, DOp.unsub 5]
        initDescSt).1.jobs 5 = false ∧
      (0, 5) ∈ (runTrace [DOp.describeIter 5 0 10 none, DOp.unsub 5]
        initDescSt).1.queue) ∧
    (jobsHas (runTrace [DOp.describeIter 5 0 10 none, DOp.unsub 5,
        DOp.describeIter 5 0 10 none] initDescSt).1.jobs 5 = true ∧
      (runTrace [DOp.describeIter 5 0 10 none, DOp.unsub 5,
        DOp.describeIter 5 0 10 none] initDescSt).1.queue.count (0, 5) = 2) := by
  decide

/-! Basic lemmas about the heap, the jobs mapping, and the `_update` loops. -/

theorem eraseFirst_mem_of_ne {q : List (Nat × Nat)} {x m : Nat × Nat}
    (hx : x ∈ q) (hne : x ≠ m) : x ∈ eraseFirst q m := by
  induction q with
  | nil => cases hx
  | cons y ys ih =>
    simp only [eraseFirst]
    split
    next hym =>
      rcases List.mem_cons.mp hx with h | h
      · exact absurd (h.trans hym) hne
      · exact h
    next hym =>
      rcases List.mem_cons.mp hx with h | h
      · rw [h]; exact List.mem_cons_self y _
      · exact List.mem_cons_of_mem y (ih h)

theorem reenqueue_mem {now : Nat} {ids : List Nat} {q : List (Nat × Nat)}
    {a : Nat × Nat} :
    a ∈ reenqueue now ids q ↔ a ∈ q ∨ ∃ j ∈ ids, a = (now, j) := by
  induction ids generalizing q with
  | nil => simp [reenqueue]
  | cons i is ih =>
    simp only [reenqueue, List.foldl_cons] at *
    rw [ih (q := (now, i) :: q)]
    constructor
    · rintro (h | ⟨j, hj, rfl⟩)
      · rcases List.mem_cons.mp h with h | h
        · exact Or.inr ⟨i, List.mem_cons_self _ _, h⟩
        · exact Or.inl h
      · exact Or.inr ⟨j, List.mem_cons_of_mem _ hj, rfl⟩
    · rintro (h | ⟨j, hj, rfl⟩)
      · exact Or.inl (List.mem_cons_of_mem _ h)
      · rcases List.mem_cons.mp hj with rfl | hj
        · exact Or.inl (List.mem_cons_self _ _)
        · exact Or.inr ⟨j, hj, rfl⟩

theorem popBatch_acc_subset (fuel : Nat) :
    ∀ (q : List (Nat × Nat)) (jobs : Jobs) (acc : List Nat),
      acc ⊆ (popBatch fuel q jobs acc).1 := by
  induction fuel with
  | zero => intro q jobs acc; exact List.Subset.refl acc
  | succ n ih =>
    intro q jobs acc
    simp only [popBatch]
    split
    · exact List.Subset.refl acc
    · split
      · exact List.Subset.refl acc
      · split
        · exact List.Subset.refl acc
        · split
          · exact List.Subset.trans (List.subset_append_left _ _) (ih _ _ _)
          · exact ih _ _ _

theorem popBatch_ids (fuel : Nat) :
    ∀ (q : List (Nat × Nat)) (jobs : Jobs) (acc : List Nat) (x : Nat),
      x ∈ (popBatch fuel q jobs acc).1 → x ∈ acc ∨ jobsHas jobs x = true := by
  induction fuel with
  | zero => intro q jobs acc x hx; exact Or.inl hx
  | succ n ih =>
    intro q jobs acc x hx
    simp only [popBatch] at hx
    split at hx
    · exact Or.inl hx
    · split at hx
      · exact Or.inl hx
      next m heq =>
        split at hx
        · exact Or.inl hx
        · split at hx
          next hjobs =>
            rcases ih _ _ _ _ hx with h | h
            · rcases List.mem_append.mp h with h | h
              · exact Or.inl h
              · right
                have hxm : x = m.2 := by simpa using h
                rw [hxm]; exact hjobs
            · exact Or.inr h
          next => exact ih _ _ _ _ hx

theorem popBatch_cover (fuel : Nat) :
    ∀ (q : List (Nat × Nat)) (jobs : Jobs) (acc ids : List Nat)
      (q1 : List (Nat × Nat)) (p j : Nat),
      popBatch fuel q jobs acc = (ids, q1, none) →
      jobsHas jobs j = true → (p, j) ∈ q →
      (∃ p2, (p2, j) ∈ q1) ∨ j ∈ ids := by
  induction fuel with
  | zero =>
    intro q jobs acc ids q1 p j h hj hin
    simp only [popBatch, Prod.mk.injEq] at h
    exact Or.inl ⟨p, h.2.1 ▸ hin⟩
  | succ n ih =>
    intro q jobs acc ids q1 p j h hj hin
    simp only [popBatch] at h
    split at h
    · simp only [Prod.mk.injEq] at h
      exact Or.inl ⟨p, h.2.1 ▸ hin⟩
    · split at h
      · simp only [Prod.mk.injEq] at h
        exact Or.inl ⟨p, h.2.1 ▸ hin⟩
      next m heq =>
        split at h
        · simp only [Prod.mk.injEq] at h
          exact absurd h.2.2 (by simp)
        next hdup =>
          split at h
          next hjobs =>
            by_cases hxm : (p, j) = m
            · right
              have hj2 : j ∈ acc ++ [m.2] := by
                have h2 : m.2 = j := by rw [← hxm]
                simp [h2]
              have hsub := popBatch_acc_subset n (eraseFirst q m) jobs
                (acc ++ [m.2]) hj2
              rw [h] at hsub
              exact hsub
            · exact ih _ _ _ _ _ p j h hj (eraseFirst_mem_of_ne hin hxm)
          next hjobs =>
            by_cases hxm : (p, j) = m
            · exfalso
              have h2 : m.2 = j := by rw [← hxm]
              rw [h2] at hjobs
              exact hjobs hj
            · exact ih _ _ _ _ _ p j h hj (eraseFirst_mem_of_ne hin hxm)

theorem popBatch_nodup (fuel : Nat) :
    ∀ (q : List (Nat × Nat)) (jobs : Jobs) (acc ids : List Nat)
      (q1 : List (Nat × Nat)),
      popBatch fuel q jobs acc = (ids, q1, none) → acc.Nodup → ids.Nodup := by
  induction fuel with
  | zero =>
    intro q jobs acc ids q1 h hacc
    simp only [popBatch, Prod.mk.injEq] at h
    exact h.1 ▸ hacc
  | succ n ih =>
    intro q jobs acc ids q1 h hacc
    simp only [popBatch] at h
    split at h
    · simp only [Prod.mk.injEq] at h
      exact h.1 ▸ hacc
    · split at h
      · simp only [Prod.mk.injEq] at h
        exact h.1 ▸ hacc
      next m heq =>
        split at h
        · simp only [Prod.mk.injEq] at h
          exact absurd h.2.2 (by simp)
        next hdup =>
          split at h
          next hjobs =>
            refine ih _ _ _ _ _ h ?_
            simp only [List.nodup_append, List.nodup_cons, List.not_mem_nil,
              not_false_eq_true, List.nodup_nil, and_true, true_and]
            refine ⟨hacc, ?_⟩
            intro a ha hb
            rw [List.mem_singleton] at hb
            exact hdup (hb ▸ ha)
          next => exact ih _ _ _ _ _ h hacc


theorem jobsHas_iff {jobs : Jobs} {j : Nat} :
    jobsHas jobs j = true ↔ ∃ kv ∈ jobs, kv.1 = j := by
  simp [jobsHas, List.any_eq_true]

theorem jobsHas_false_iff {jobs : Jobs} {j : Nat} :
    jobsHas jobs j = false ↔ ∀ kv ∈ jobs, kv.1 ≠ j := by
  constructor
  · intro h kv hkv hc
    have h2 : jobsHas jobs j = true := jobsHas_iff.mpr ⟨kv, hkv, hc⟩
    rw [h] at h2
    cases h2
  · intro h
    cases hh : jobsHas jobs j with
    | false => rfl
    | true =>
      obtain ⟨kv, hkv, hc⟩ := jobsHas_iff.mp hh
      exact absurd hc (h kv hkv)

theorem jobsGet_map_set (j : Nat) (d : Option JobDesc) :
    ∀ jobs : Jobs, jobsHas jobs j = true →
      jobsGet (jobs.map (fun kv => if kv.1 == j then (j, d) else kv)) j
        = some d := by
  intro jobs
  induction jobs with
  | nil => intro h; simp [jobsHas] at h
  | cons kv rest ih =>
    intro h
    by_cases hkv : kv.1 = j
    · simp [jobsGet, hkv]
    · have hkvb : (kv.1 == j) = false := by
        rw [beq_eq_false_iff_ne]; exact hkv
      have hrest : jobsHas rest j = true := by
        simpa [jobsHas, hkvb] using h
      simpa [jobsGet, hkvb] using ih hrest

theorem jobsGet_append_self (j : Nat) (d : Option JobDesc) :
    ∀ jobs : Jobs, jobsHas jobs j = false →
      jobsGet (jobs ++ [(j, d)]) j = some d := by
  intro jobs
  induction jobs with
  | nil => intro _; simp [jobsGet]
  | cons kv rest ih =>
    intro h
    have hall := jobsHas_false_iff.mp h
    have hkv : (kv.1 == j) = false := by
      rw [beq_eq_false_iff_ne]
      exact hall kv (List.mem_cons_self kv rest)
    have hrest : jobsHas rest j = false :=
      jobsHas_false_iff.mpr (fun kv2 hk => hall kv2 (List.mem_cons_of_mem kv hk))
    simpa [jobsGet, hkv] using ih hrest

theorem jobsGet_jobsSet_self {jobs : Jobs} {j : Nat} {d : Option JobDesc} :
    jobsGet (jobsSet jobs j d) j = some d := by
  unfold jobsSet
  split
  next h => exact jobsGet_map_set j d jobs h
  next h => exact jobsGet_append_self j d jobs (by simpa using h)

theorem jobsGet_map_set_ne (j x : Nat) (d : Option JobDesc) (hne : x ≠ j) :
    ∀ jobs : Jobs,
      jobsGet (jobs.map (fun kv => if kv.1 == j then (j, d) else kv)) x
        = jobsGet jobs x := by
  intro jobs
  have hjx : (j == x) = false := by
    rw [beq_eq_false_iff_ne]; exact fun hc => hne hc.symm
  induction jobs with
  | nil => simp
  | cons kv rest ih =>
    by_cases hkv : kv.1 = j
    · have hkx : (kv.1 == x) = false := by
        rw [beq_eq_false_iff_ne, hkv]; exact fun hc => hne hc.symm
      have hkvb : (kv.1 == j) = true := by rw [beq_iff_eq]; exact hkv
      simpa [jobsGet, hkvb, hjx, hkx] using ih
    · have hkvb : (kv.1 == j) = false := by rw [beq_eq_false_iff_ne]; exact hkv
      by_cases hkx : kv.1 = x
      · have hkxb : (kv.1 == x) = true := by rw [beq_iff_eq]; exact hkx
        simp [jobsGet, hkvb, hkxb]
      · have hkxb : (kv.1 == x) = false := by rw [beq_eq_false_iff_ne]; exact hkx
        simpa [jobsGet, hkvb, hkxb] using ih

theorem jobsGet_append_ne (j x : Nat) (d : Option JobDesc) (hne : x ≠ j) :
    ∀ jobs : Jobs, jobsGet (jobs ++ [(j, d)]) x = jobsGet jobs x := by
  intro jobs
  have hjx : (j == x) = false := by
    rw [beq_eq_false_iff_ne]; exact fun hc => hne hc.symm
  induction jobs with
  | nil => simp [jobsGet, hjx]
  | cons kv rest ih =>
    by_cases hkx : kv.1 = x
    · simp [jobsGet, hkx]
    · have hkxb : (kv.1 == x) = false := by rw [beq_eq_false_iff_ne]; exact hkx
      simpa [jobsGet, hkxb] using ih

theorem jobsGet_jobsSet_ne {jobs : Jobs} {j x : Nat} {d : Option JobDesc}
    (hne : x ≠ j) : jobsGet (jobsSet jobs j d) x = jobsGet jobs x := by
  unfold jobsSet
  split
  · exact jobsGet_map_set_ne j x d hne jobs
  · exact jobsGet_append_ne j x d hne jobs

theorem jobsHas_jobsSet {jobs : Jobs} {j x : Nat} {d : Option JobDesc}
    (h : jobsHas (jobsSet jobs j d) x = true) :
    jobsHas jobs x = true ∨ x = j := by
  unfold jobsSet at h
  split at h
  · obtain ⟨kv, hkv, hx⟩ := jobsHas_iff.mp h
    obtain ⟨kv0, hkv0, rfl⟩ := List.mem_map.mp hkv
    by_cases h0 : kv0.1 = j
    · right
      have heq : (if (kv0.1 == j) = true then ((j, d) : Nat × Option JobDesc)
          else kv0) = (j, d) := by
        simp [h0]
      rw [heq] at hx
      exact hx.symm
    · left
      have heq : (if (kv0.1 == j) = true then ((j, d) : Nat × Option JobDesc)
          else kv0) = kv0 := by
        simp [h0]
      rw [heq] at hx
      exact jobsHas_iff.mpr ⟨kv0, hkv0, hx⟩
  · obtain ⟨kv, hkv, hx⟩ := jobsHas_iff.mp h
    rcases List.mem_append.mp hkv with hm | hm
    · exact Or.inl (jobsHas_iff.mpr ⟨kv, hm, hx⟩)
    · right
      have hkvj : kv = (j, d) := by simpa using hm
      rw [hkvj] at hx
      exact hx.symm

theorem jobsHas_jobsErase {jobs : Jobs} {j x : Nat}
    (h : jobsHas (jobsErase jobs j) x = true) :
    jobsHas jobs x = true ∧ x ≠ j := by
  obtain ⟨kv, hkv, hx⟩ := jobsHas_iff.mp h
  have hmem := List.mem_filter.mp hkv
  refine ⟨jobsHas_iff.mpr ⟨kv, hmem.1, hx⟩, ?_⟩
  intro hc
  have hne : (kv.1 != j) = true := hmem.2
  rw [bne_iff_ne] at hne
  exact hne (hx.trans hc)

theorem jobsHas_jobsErase_self {jobs : Jobs} {j : Nat} :
    jobsHas (jobsErase jobs j) j = false := by
  cases h : jobsHas (jobsErase jobs j) j with
  | false => rfl
  | true => exact absurd rfl (jobsHas_jobsErase h).2

theorem unsubscribe_noop {j : Nat} {s : DescSt}
    (h : jobsHas s.jobs j = false) : unsubscribe j s = s := by
  unfold unsubscribe
  have heq : jobsErase s.jobs j = s.jobs := by
    apply List.filter_eq_self.mpr
    intro kv hkv
    rw [bne_iff_ne]
    exact jobsHas_false_iff.mp h kv hkv
  rw [heq]

theorem processResp_keys :
    ∀ (ds : List JobDesc) (ids : List Nat) (jobs : Jobs) (x : Nat),
      jobsHas (processResp ids jobs ds).2.1 x = true →
      jobsHas jobs x = true ∨ x ∈ ids := by
  intro ds
  induction ds with
  | nil => intro ids jobs x h; exact Or.inl h
  | cons d ds ih =>
    intro ids jobs x h
    simp only [processResp] at h
    split at h
    next hmem =>
      rcases ih _ _ _ h with h2 | h2
      · rcases jobsHas_jobsSet h2 with h3 | h3
        · exact Or.inl h3
        · exact Or.inr (h3 ▸ hmem)
      · exact Or.inr (List.mem_of_mem_erase h2)
    next => exact Or.inl h

theorem processResp_frame :
    ∀ (ds : List JobDesc) (ids : List Nat) (jobs : Jobs) (x : Nat),
      (∀ d ∈ ds, d.jobId ≠ x) →
      jobsGet (processResp ids jobs ds).2.1 x = jobsGet jobs x := by
  intro ds
  induction ds with
  | nil => intro ids jobs x _; rfl
  | cons d ds ih =>
    intro ids jobs x hall
    simp only [processResp]
    split
    · rw [ih _ _ _ (fun d2 hd2 => hall d2 (List.mem_cons_of_mem d hd2))]
      exact jobsGet_jobsSet_ne
        (fun hc => hall d (List.mem_cons_self d ds) hc.symm)
    · rfl

theorem processResp_lookup :
    ∀ (ds : List JobDesc) (ids : List Nat) (jobs : Jobs),
      (processResp ids jobs ds).2.2 = none →
      (ds.map JobDesc.jobId).Nodup →
      ∀ d ∈ ds,
        jobsGet (processResp ids jobs ds).2.1 d.jobId = some (some d) := by
  intro ds
  induction ds with
  | nil => intro ids jobs _ _ d hd; cases hd
  | cons d0 ds ih =>
    intro ids jobs hok hnd d hd
    simp only [processResp] at hok ⊢
    split at hok
    next hmem =>
      rw [if_pos hmem]
      simp only [List.map_cons, List.nodup_cons] at hnd
      rcases List.mem_cons.mp hd with rfl | hd2
      · rw [processResp_frame ds _ _ d.jobId
          (fun d2 hd2 hc => hnd.1 (hc ▸ List.mem_map_of_mem JobDesc.jobId hd2))]
        exact jobsGet_jobsSet_self
      · exact ih _ _ hok hnd.2 d hd2
    next hmem =>
      cases hok

theorem processResp_success_iff :
    ∀ (ds : List JobDesc) (ids : List Nat) (jobs : Jobs), ids.Nodup →
      (((processResp ids jobs ds).2.2 = none ∧
          (processResp ids jobs ds).1 = []) ↔
        ((ds.map JobDesc.jobId).Nodup ∧
          ∀ x, x ∈ ds.map JobDesc.jobId ↔ x ∈ ids)) := by
  intro ds
  induction ds with
  | nil =>
    intro ids jobs _
    simp only [processResp]
    constructor
    · rintro ⟨-, h2⟩
      refine ⟨List.nodup_nil, ?_⟩
      intro x
      simp [h2]
    · rintro ⟨-, h2⟩
      refine ⟨trivial, ?_⟩
      cases ids with
      | nil => rfl
      | cons i is => exact absurd ((h2 i).mpr (List.mem_cons_self i is)) (by simp)
  | cons d ds ih =>
    intro ids jobs hnd
    simp only [processResp]
    split
    next hmem =>
      have hnd2 : (ids.erase d.jobId).Nodup := hnd.erase _
      rw [ih (ids.erase d.jobId) (jobsSet jobs d.jobId (some d)) hnd2]
      constructor
      · rintro ⟨hnodup, hext⟩
        constructor
        · simp only [List.map_cons, List.nodup_cons]
          refine ⟨?_, hnodup⟩
          intro hc
          have h3 := (hext d.jobId).mp hc
          exact ((List.Nodup.mem_erase_iff hnd).mp h3).1 rfl
        · intro x
          simp only [List.map_cons, List.mem_cons]
          constructor
          · rintro (rfl | hx)
            · exact hmem
            · exact List.mem_of_mem_erase ((hext x).mp hx)
          · intro hx
            by_cases hxd : x = d.jobId
            · exact Or.inl hxd
            · exact Or.inr ((hext x).mpr
                ((List.Nodup.mem_erase_iff hnd).mpr ⟨hxd, hx⟩))
      · rintro ⟨hnodup, hext⟩
        simp only [List.map_cons, List.nodup_cons] at hnodup
        refine ⟨hnodup.2, ?_⟩
        intro x
        constructor
        · intro hx
          have hxd : x ≠ d.jobId := fun hc => hnodup.1 (hc ▸ hx)
          have hxids : x ∈ ids := (hext x).mp
            (by simp only [List.map_cons, List.mem_cons]; exact Or.inr hx)
          exact (List.Nodup.mem_erase_iff hnd).mpr ⟨hxd, hxids⟩
        · intro hx
          obtain ⟨hxd, hxids⟩ := (List.Nodup.mem_erase_iff hnd).mp hx
          have h4 := (hext x).mpr hxids
          simp only [List.map_cons, List.mem_cons] at h4
          rcases h4 with h | h
          · exact absurd h hxd
          · exact h
    next hmem =>
      constructor
      · rintro ⟨h1, -⟩
        cases h1
      · rintro ⟨-, hext⟩
        exact absurd ((hext d.jobId).mp
          (by simp)) hmem

theorem update_char (now period : Nat) (resp : Option (List JobDesc))
    (s : DescSt) (ids : List Nat) (q1 : List (Nat × Nat))
    (htime : s.lastReq + period ≤ now)
    (hq : s.queue.isEmpty = false)
    (hpop : popBatch s.queue.length s.queue s.jobs [] = (ids, q1, none))
    (hids : ids.isEmpty = false) :
    update now period resp s =
      match resp with
      | none =>
        ({ s with lastReq := now, queue := reenqueue now ids q1 },
         UpOutcome.apiError, ids)
      | some ds =>
        match processResp ids s.jobs ds with
        | (_, jobs1, some m) =>
          ({ s with lastReq := now, queue := reenqueue now ids q1,
                    jobs := jobs1 }, UpOutcome.fault m, ids)
        | (rem, jobs1, none) =>
          if rem.isEmpty then
            ({ s with lastReq := now, queue := reenqueue now ids q1,
                      jobs := jobs1 }, UpOutcome.ok, ids)
          else
            ({ s with lastReq := now, queue := reenqueue now ids q1,
                      jobs := jobs1 },
             UpOutcome.fault "AWS Batch DescribeJobs didn't return all expected results",
             ids) := by
  unfold update
  rw [if_pos htime]
  rw [if_neg (by simp [hq])]
  rw [hpop]
  dsimp only
  rw [if_neg (by simp [hids])]

/-- C2: for a bulk describe-call of `BatchJobDescriber._update` over the
requested batch `ids`, the outcome is `ok` exactly when the response `ds`
consists of the requested handles, each exactly once (otherwise the
response-processing step raises an integrity fault — the `KeyError` from
`job_ids.remove` for an unexpected handle, or the failed
`assert not job_ids` for a missing one); on `ok`, every requested handle's
stored description is updated from the response, and in this branch the only
possible outcomes are `ok` or a fault (never a silent drop). -/
theorem update_response_integrity (now period : Nat) (ds : List JobDesc)
    (s : DescSt) (ids : List Nat) (q1 : List (Nat × Nat))
    (htime : s.lastReq + period ≤ now)
    (hq : s.queue.isEmpty = false)
    (hpop : popBatch s.queue.length s.queue s.jobs [] = (ids, q1, none))
    (hids : ids.isEmpty = false) :
    ((update now period (some ds) s).2.1 = UpOutcome.ok ↔
      ((ds.map JobDesc.jobId).Nodup ∧
        ∀ x, x ∈ ds.map JobDesc.jobId ↔ x ∈ ids)) ∧
    ((update now period (some ds) s).2.1 = UpOutcome.ok →
      ∀ d ∈ ds, jobsGet (update now period (some ds) s).1.jobs d.jobId
        = some (some d)) ∧
    ((update now period (some ds) s).2.1 = UpOutcome.ok ∨
      ∃ m, (update now period (some ds) s).2.1 = UpOutcome.fault m) := by
  have hnodup : ids.Nodup := popBatch_nodup _ _ _ _ _ _ hpop List.nodup_nil
  have hchar := update_char now period (some ds) s ids q1 htime hq hpop hids
  have hiff := processResp_success_iff ds ids s.jobs hnodup
  dsimp only at hchar
  rcases hpr : processResp ids s.jobs ds with ⟨rem, jobs1, flt⟩
  rw [hpr] at hchar hiff
  cases flt with
  | some m =>
    dsimp only at hchar
    rw [hchar]
    refine ⟨⟨?_, ?_⟩, ?_, ?_⟩
    · intro h; exact absurd h (by simp)
    · intro hr
      exact absurd (hiff.mpr hr).1 (by simp)
    · intro h; exact absurd h (by simp)
    · exact Or.inr ⟨m, rfl⟩
  | none =>
    dsimp only at hchar
    by_cases hrem : rem.isEmpty = true
    · rw [if_pos hrem] at hchar
      rw [hchar]
      have hsucc := hiff.mp ⟨rfl, List.isEmpty_iff.mp hrem⟩
      refine ⟨⟨fun _ => hsucc, fun _ => rfl⟩, ?_, Or.inl rfl⟩
      intro _ d hd
      have hl := processResp_lookup ds ids s.jobs (by rw [hpr]) hsucc.1 d hd
      rw [hpr] at hl
      exact hl
    · rw [if_neg hrem] at hchar
      rw [hchar]
      refine ⟨⟨?_, ?_⟩, ?_, ?_⟩
      · intro h; exact absurd h (by simp)
      · intro hr
        exact absurd (List.isEmpty_iff.mpr (hiff.mpr hr).2) hrem
      · intro h; exact absurd h (by simp)
      · exact Or.inr ⟨_, rfl⟩

/-- Witness for `update_response_integrity` at a concrete state with two
subscribed jobs and a response carrying exactly the two requested handles. -/
theorem update_response_integrity_witness :
    (update 5 1 (some [⟨1, 11⟩, ⟨2, 22⟩])
        ⟨0, [(0, 1), (0, 2)], [(1, none), (2, none)]⟩).2.1 = UpOutcome.ok ∧
    jobsGet (update 5 1 (some [⟨1, 11⟩, ⟨2, 22⟩])
        ⟨0, [(0, 1), (0, 2)], [(1, none), (2, none)]⟩).1.jobs 1
      = some (some ⟨1, 11⟩) := by
  have h := update_response_integrity 5 1 [⟨1, 11⟩, ⟨2, 22⟩]
    ⟨0, [(0, 1), (0, 2)], [(1, none), (2, none)]⟩ [1, 2] []
    (by decide) (by decide) (by decide) (by decide)
  have hok := h.1.mpr ⟨by decide, fun x => Iff.rfl⟩
  exact ⟨hok, h.2.1 hok ⟨1, 11⟩ (by decide)⟩

/-- C6: whenever `_update` issues a bulk describe-call for the popped batch
`ids`, then no matter whether the call succeeds (`resp = some ds`, including
responses that later raise an integrity fault) or raises (`resp = none`), the
`finally:` block re-enqueues every popped handle with the new request
timestamp and bumps `last_request_time`; a failed bulk call never removes a
subscribed handle from the polling rotation. -/
theorem update_reenqueues_always (now period : Nat)
    (resp : Option (List JobDesc)) (s : DescSt) (ids : List Nat)
    (q1 : List (Nat × Nat))
    (htime : s.lastReq + period ≤ now)
    (hq : s.queue.isEmpty = false)
    (hpop : popBatch s.queue.length s.queue s.jobs [] = (ids, q1, none))
    (hids : ids.isEmpty = false) :
    (update now period resp s).2.2 = ids ∧
    (update now period resp s).1.lastReq = now ∧
    ∀ j ∈ ids, (now, j) ∈ (update now period resp s).1.queue := by
  have hchar := update_char now period resp s ids q1 htime hq hpop hids
  cases resp with
  | none =>
    rw [hchar]
    exact ⟨rfl, rfl, fun j hj => reenqueue_mem.mpr (Or.inr ⟨j, hj, rfl⟩)⟩
  | some ds =>
    dsimp only at hchar
    rcases hpr : processResp ids s.jobs ds with ⟨rem, jobs1, flt⟩
    rw [hpr] at hchar
    cases flt with
    | some m =>
      dsimp only at hchar
      rw [hchar]
      exact ⟨rfl, rfl, fun j hj => reenqueue_mem.mpr (Or.inr ⟨j, hj, rfl⟩)⟩
    | none =>
      dsimp only at hchar
      by_cases hrem : rem.isEmpty = true
      · rw [if_pos hrem] at hchar
        rw [hchar]
        exact ⟨rfl, rfl, fun j hj => reenqueue_mem.mpr (Or.inr ⟨j, hj, rfl⟩)⟩
      · rw [if_neg hrem] at hchar
        rw [hchar]
        exact ⟨rfl, rfl, fun j hj => reenqueue_mem.mpr (Or.inr ⟨j, hj, rfl⟩)⟩

/-- Witness for `update_reenqueues_always` at a concrete state where the
bulk describe-call raises (`resp = none`): the popped handles are still
re-enqueued with the new timestamp. -/
theorem update_reenqueues_always_witness :
    (update 5 1 none ⟨0, [(0, 1), (0, 2)], [(1, none), (2, none)]⟩).2.2
      = [1, 2] ∧
    (update 5 1 none ⟨0, [(0, 1), (0, 2)], [(1, none), (2, none)]⟩).1.lastReq
      = 5 ∧
    (5, 1) ∈ (update 5 1 none
      ⟨0, [(0, 1), (0, 2)], [(1, none), (2, none)]⟩).1.queue := by
  have h := update_reenqueues_always 5 1 none
    ⟨0, [(0, 1), (0, 2)], [(1, none), (2, none)]⟩ [1, 2] []
    (by decide) (by decide) (by decide) (by decide)
  exact ⟨h.1, h.2.1, h.2.2 1 (by decide)⟩

theorem subscribe_keys {j x : Nat} {s : DescSt}
    (h : jobsHas (subscribe j s).jobs x = true) :
    jobsHas s.jobs x = true ∨ x = j := by
  unfold subscribe at h
  split at h
  · exact Or.inl h
  · obtain ⟨kv, hkv, hx⟩ := jobsHas_iff.mp h
    rcases List.mem_append.mp hkv with hm | hm
    · exact Or.inl (jobsHas_iff.mpr ⟨kv, hm, hx⟩)
    · right
      have hkvj : kv = (j, none) := by simpa using hm
      rw [hkvj] at hx
      exact hx.symm

theorem subscribe_covers {j : Nat} {s : DescSt} (h : QueueCovers s) :
    QueueCovers (subscribe j s) := by
  unfold subscribe
  split
  next => exact h
  next hhas =>
    intro x hx
    rcases subscribe_keys (j := j) (s := s)
        (by unfold subscribe; rw [if_neg hhas]; exact hx) with h2 | h2
    · obtain ⟨p, hp⟩ := h x h2
      exact ⟨p, List.mem_cons_of_mem _ hp⟩
    · exact ⟨0, by rw [h2]; exact List.mem_cons_self _ _⟩

theorem update_requested (now period : Nat) (resp : Option (List JobDesc))
    (s : DescSt) :
    ∀ x ∈ (update now period resp s).2.2, jobsHas s.jobs x = true := by
  intro x hx
  unfold update at hx
  split at hx
  next htime =>
    split at hx
    next => cases hx
    next =>
      split at hx
      next ids q1 m heq =>
        rcases popBatch_ids s.queue.length s.queue s.jobs [] x
            (by rw [heq]; exact hx) with h | h
        · cases h
        · exact h
      next ids q1 heq =>
        split at hx
        next => cases hx
        next =>
          have hxids : x ∈ ids := by
            cases resp with
            | none => exact hx
            | some ds =>
              dsimp only at hx
              rcases hpr : processResp ids s.jobs ds with ⟨rem, jobs1, flt⟩
              rw [hpr] at hx
              cases flt with
              | some m => exact hx
              | none =>
                dsimp only at hx
                by_cases hrem : rem.isEmpty = true
                · rw [if_pos hrem] at hx; exact hx
                · rw [if_neg hrem] at hx; exact hx
          rcases popBatch_ids s.queue.length s.queue s.jobs [] x
              (by rw [heq]; exact hxids) with h | h
          · cases h
          · exact h
  next => cases hx

theorem update_keys (now period : Nat) (resp : Option (List JobDesc))
    (s : DescSt) (x : Nat)
    (h : jobsHas (update now period resp s).1.jobs x = true) :
    jobsHas s.jobs x = true := by
  unfold update at h
  split at h
  next htime =>
    split at h
    next => exact h
    next =>
      split at h
      next ids q1 m heq => exact h
      next ids q1 heq =>
        have hids_sub : ∀ y ∈ ids, jobsHas s.jobs y = true := by
          intro y hy
          rcases popBatch_ids s.queue.length s.queue s.jobs [] y
              (by rw [heq]; exact hy) with h2 | h2
          · cases h2
          · exact h2
        split at h
        next => exact h
        next =>
          cases resp with
          | none => exact h
          | some ds =>
            dsimp only at h
            rcases hpr : processResp ids s.jobs ds with ⟨rem, jobs1, flt⟩
            rw [hpr] at h
            have hj1 : jobsHas jobs1 x = true → jobsHas s.jobs x = true := by
              intro hh
              rcases processResp_keys ds ids s.jobs x
                  (by rw [hpr]; exact hh) with h2 | h2
              · exact h2
              · exact hids_sub x h2
            cases flt with
            | some m => exact hj1 h
            | none =>
              dsimp only at h
              by_cases hrem : rem.isEmpty = true
              · rw [if_pos hrem] at h; exact hj1 h
              · rw [if_neg hrem] at h; exact hj1 h
  next => exact h

theorem update_covers (now period : Nat) (resp : Option (List JobDesc))
    (s : DescSt) (h : QueueCovers s)
    (hok : ((update now period resp s).2.1).isFault = false) :
    QueueCovers (update now period resp s).1 := by
  by_cases htime : s.lastReq + period ≤ now
  · by_cases hqe : s.queue.isEmpty = true
    · exfalso
      unfold update at hok
      rw [if_pos htime, if_pos hqe] at hok
      exact absurd hok (by simp [UpOutcome.isFault])
    · have hq : s.queue.isEmpty = false := by
        cases hh : s.queue.isEmpty with
        | false => rfl
        | true => exact absurd hh hqe
      rcases hpop : popBatch s.queue.length s.queue s.jobs []
        with ⟨ids, q1, flt⟩
      cases flt with
      | some m =>
        exfalso
        unfold update at hok
        rw [if_pos htime, if_neg (by simp [hq]), hpop] at hok
        exact absurd hok (by simp [UpOutcome.isFault])
      | none =>
        by_cases hids : ids.isEmpty = true
        · have hchar2 : update now period resp s
              = ({ s with queue := q1 }, .emptyBatch, []) := by
            unfold update
            rw [if_pos htime, if_neg (by simp [hq]), hpop]
            dsimp only
            rw [if_pos hids]
          rw [hchar2]
          intro x hx
          obtain ⟨p, hp⟩ := h x hx
          rcases popBatch_cover s.queue.length s.queue s.jobs [] ids q1 p x
              hpop hx hp with ⟨p2, hp2⟩ | hxids
          · exact ⟨p2, hp2⟩
          · exact absurd hxids (by simp [List.isEmpty_iff.mp hids])
        · have hids2 : ids.isEmpty = false := by
            cases hh : ids.isEmpty with
            | false => rfl
            | true => exact absurd hh hids
          have hchar := update_char now period resp s ids q1 htime hq hpop hids2
          have hcov : ∀ jobs2 : Jobs,
              (∀ x, jobsHas jobs2 x = true →
                jobsHas s.jobs x = true ∨ x ∈ ids) →
              QueueCovers ⟨now, reenqueue now ids q1, jobs2⟩ := by
            intro jobs2 hsub x hx
            rcases hsub x hx with hxk | hxi
            · obtain ⟨p, hp⟩ := h x hxk
              rcases popBatch_cover s.queue.length s.queue s.jobs [] ids q1 p x
                  hpop hxk hp with ⟨p2, hp2⟩ | hxi2
              · exact ⟨p2, reenqueue_mem.mpr (Or.inl hp2)⟩
              · exact ⟨now, reenqueue_mem.mpr (Or.inr ⟨x, hxi2, rfl⟩)⟩
            · exact ⟨now, reenqueue_mem.mpr (Or.inr ⟨x, hxi, rfl⟩)⟩
          cases resp with
          | none =>
            rw [hchar]
            exact hcov s.jobs (fun x hx => Or.inl hx)
          | some ds =>
            dsimp only at hchar
            rcases hpr : processResp ids s.jobs ds with ⟨rem, jobs1, flt⟩
            rw [hpr] at hchar
            have hj1 : ∀ x, jobsHas jobs1 x = true →
                jobsHas s.jobs x = true ∨ x ∈ ids := by
              intro x hx
              exact processResp_keys ds ids s.jobs x (by rw [hpr]; exact hx)
            cases flt with
            | some m =>
              exfalso
              dsimp only at hchar
              rw [hchar] at hok
              exact absurd hok (by simp [UpOutcome.isFault])
            | none =>
              dsimp only at hchar
              by_cases hrem : rem.isEmpty = true
              · rw [if_pos hrem] at hchar
                rw [hchar]
                exact hcov jobs1 hj1
              · exfalso
                rw [if_neg hrem] at hchar
                rw [hchar] at hok
                exact absurd hok (by simp [UpOutcome.isFault])
  · have hchar3 : update now period resp s = (s, .skipped, []) := by
      unfold update
      rw [if_neg htime]
    rw [hchar3]
    exact h

/-- C1 (amended): every describer operation that does not abort with an
integrity fault preserves the invariant that every JobHandle present in the
`jobs` mapping appears at least once in the staleness queue; `unsubscribe`
removes the handle from the mapping only (stale queue entries are purged
lazily when popped during a later `_update`) and is a no-op, not an error,
when the handle was never subscribed or already removed. -/
theorem describer_preserves_atLeastOnce (op : DOp) (s : DescSt)
    (hInv : QueueCovers s)
    (hok : ((stepOp op s).2.1).isFault = false) :
    QueueCovers (stepOp op s).1 ∧
    ∀ (j2 : Nat) (t : DescSt), jobsHas t.jobs j2 = false →
      unsubscribe j2 t = t := by
  refine ⟨?_, fun j2 t ht => unsubscribe_noop ht⟩
  cases op with
  | describeIter j now period resp =>
    exact update_covers now period resp (subscribe j s)
      (subscribe_covers hInv) hok
  | unsub j =>
    intro x hx
    obtain ⟨hxk, hne⟩ := jobsHas_jobsErase hx
    exact hInv x hxk

/-- Witness for `describer_preserves_atLeastOnce`: one concrete
`describe` iteration from the freshly constructed describer state. -/
theorem describer_preserves_atLeastOnce_witness :
    QueueCovers (stepOp (DOp.describeIter 7 0 5 none) initDescSt).1 :=
  (describer_preserves_atLeastOnce (DOp.describeIter 7 0 5 none) initDescSt
    (fun j h => by simp [jobsHas, initDescSt] at h)
    (by decide)).1

theorem trace_never_requested (j : Nat) (ops : List DOp) :
    ∀ s : DescSt, jobsHas s.jobs j = false →
      (∀ op ∈ ops, op.describes j = false) →
      jobsHas (runTrace ops s).1.jobs j = false ∧
      ∀ req ∈ (runTrace ops s).2, j ∉ req := by
  induction ops with
  | nil =>
    intro s h _
    exact ⟨h, by intro req hreq; cases hreq⟩
  | cons op ops ih =>
    intro s h hops
    have hop := hops op (List.mem_cons_self op ops)
    have hstep : jobsHas (stepOp op s).1.jobs j = false ∧
        j ∉ (stepOp op s).2.2 := by
      cases op with
      | describeIter j2 now period resp =>
        simp only [stepOp]
        have hne : j2 ≠ j := by
          simp only [DOp.describes, beq_eq_false_iff_ne] at hop
          exact hop
        have hsub : jobsHas (subscribe j2 s).jobs j = false := by
          cases hh : jobsHas (subscribe j2 s).jobs j with
          | false => rfl
          | true =>
            rcases subscribe_keys hh with h2 | h2
            · rw [h] at h2; cases h2
            · exact absurd h2.symm hne
        constructor
        · cases hh : jobsHas (update now period resp (subscribe j2 s)).1.jobs j with
          | false => rfl
          | true =>
            have := update_keys now period resp (subscribe j2 s) j hh
            rw [hsub] at this
            cases this
        · intro hin
          have := update_requested now period resp (subscribe j2 s) j hin
          rw [hsub] at this
          cases this
      | unsub j2 =>
        simp only [stepOp]
        constructor
        · cases hh : jobsHas (unsubscribe j2 s).jobs j with
          | false => rfl
          | true =>
            obtain ⟨hxk, -⟩ := jobsHas_jobsErase hh
            rw [h] at hxk
            cases hxk
        · intro hin
          cases hin
    obtain ⟨ih1, ih2⟩ := ih (stepOp op s).1 hstep.1
      (fun op2 hop2 => hops op2 (List.mem_cons_of_mem op hop2))
    refine ⟨ih1, ?_⟩
    intro req hreq
    rcases List.mem_cons.mp hreq with rfl | hr
    · exact hstep.2
    · exact ih2 req hr

/-- C7: once `unsubscribe(job_handle)` has completed, the handle is never
included in the requested batch of any subsequently issued bulk
`DescribeJobs` call (as long as no later `describe` call re-subscribes the
same handle), even if stale entries for it remained in the staleness queue at
the time of the unsubscribe: `_update` filters popped ids through
`job_id in self.jobs` before adding them to the batch. -/
theorem unsubscribed_never_requested (j : Nat) (s : DescSt) (ops : List DOp)
    (h : ∀ op ∈ ops, op.describes j = false) :
    ∀ req ∈ (runTrace ops (unsubscribe j s)).2, j ∉ req := by
  have h0 : jobsHas (unsubscribe j s).jobs j = false := jobsHas_jobsErase_self
  exact (trace_never_requested j ops (unsubscribe j s) h0 h).2

/-- Witness for `unsubscribed_never_requested`: job 9 is unsubscribed while a
stale queue entry for it remains; a later `describe` iteration for job 7
triggers a bulk call that pops the stale entry but does not request job 9
(the batch it issues is the last requested set of the trace). -/
theorem unsubscribed_never_requested_witness :
    (9 : Nat) ∉ (runTrace [DOp.describeIter 7 100 1 none]
      (unsubscribe 9 ⟨0, [(0, 9)], [(9, none)]⟩)).2.getLast! :=
  unsubscribed_never_requested 9 ⟨0, [(0, 9)], [(9, none)]⟩
    [DOp.describeIter 7 100 1 none] (by decide) _ (by decide)

/-- C3: classification of a FAILED job description by the polling step (with
no concurrent cancellation): a statusReason containing both "Host EC2" and
"terminated" yields INTERRUPTED; otherwise a missing container exit code
yields the unconditional "AWS Batch job failed" error with no exit code;
otherwise the provided nonzero exit code is returned, and an exit code of
exactly 0 accompanying FAILED trips the integrity assert. -/
theorem awaitStep_failed_classification (s : WatcherSt) (d : WDesc)
    (h : d.status = "FAILED") :
    (hostTerminated d.statusReason = true →
      (awaitStep s d false).2 = some AwaitOutcome.interrupted) ∧
    (hostTerminated d.statusReason = false → descExitCode d = none →
      (awaitStep s d false).2 = some AwaitOutcome.failedNoCode) ∧
    (∀ ec : Int, hostTerminated d.statusReason = false →
      descExitCode d = some ec → ec ≠ 0 →
      (awaitStep s d false).2 = some (AwaitOutcome.exited ec)) ∧
    (hostTerminated d.statusReason = false → descExitCode d = some 0 →
      (awaitStep s d false).2 = some AwaitOutcome.fault) := by
  refine ⟨?_, ?_, ?_, ?_⟩
  · intro hh
    simp [awaitStep, h, hh]
  · intro hh hec
    simp [awaitStep, h, hh, hec]
  · intro ec hh hec hne
    simp [awaitStep, h, hh, hec, hne]
  · intro hh hec
    simp [awaitStep, h, hh, hec]

/-- Witness for `awaitStep_failed_classification`: a FAILED description whose
statusReason indicates spot reclamation is classified INTERRUPTED. -/
theorem awaitStep_failed_classification_witness :
    (awaitStep initWatcherSt
      ⟨"FAILED", some "Host EC2 instance i-0abc terminated", none⟩ false).2
      = some AwaitOutcome.interrupted :=
  (awaitStep_failed_classification initWatcherSt
    ⟨"FAILED", some "Host EC2 instance i-0abc terminated", none⟩ rfl).1
    (by decide)

theorem obsInsert_mem {obs : List String} {x st : String} :
    st ∈ obsInsert obs x ↔ st ∈ obs ∨ st = x := by
  unfold obsInsert
  split
  next h =>
    constructor
    · exact Or.inl
    · rintro (h2 | rfl)
      · exact h2
      · exact h
  next h => simp [List.mem_append]

theorem obsAll_mem (st : String) :
    ∀ (ds : List WDesc) (obs : List String),
      st ∈ obsAll obs ds ↔ st ∈ obs ∨ st ∈ ds.map WDesc.status := by
  intro ds
  induction ds with
  | nil => intro obs; simp [obsAll]
  | cons d ds ih =>
    intro obs
    simp only [obsAll, List.foldl_cons] at *
    rw [ih (obsInsert obs d.status)]
    rw [obsInsert_mem]
    simp only [List.map_cons, List.mem_cons]
    constructor
    · rintro ((h2 | h2) | h2)
      · exact Or.inl h2
      · exact Or.inr (Or.inl h2)
      · exact Or.inr (Or.inr h2)
    · rintro (h2 | h2 | h2)
      · exact Or.inl (Or.inl h2)
      · exact Or.inl (Or.inr h2)
      · exact Or.inr h2

theorem preExecOnly_false_of_running {obs : List String}
    (h : "RUNNING" ∈ obs) : preExecOnly obs = false := by
  unfold preExecOnly
  cases hall : obs.all (fun st => preExecSet.contains st) with
  | false => rfl
  | true => exact absurd (List.all_eq_true.mp hall "RUNNING" h) (by decide)

theorem awaitStep_nonterminal (s : WatcherSt) (d : WDesc)
    (h1 : d.status ≠ "SUCCEEDED") (h2 : d.status ≠ "FAILED") :
    awaitStep s d false
      = (⟨obsInsert s.observed d.status, lsUpdate s d⟩, none) := by
  unfold awaitStep
  rw [if_neg (by simp [h2]), if_neg (by simp [h2]), if_neg (by simp [h2]),
    if_neg (by simp), if_neg (by simp [h1]), if_neg (by simp [h2])]

theorem awaitStep_terminating (s : WatcherSt) (d : WDesc)
    (_h1 : d.status ≠ "SUCCEEDED") (h2 : d.status ≠ "FAILED") :
    awaitStep s d true
      = (⟨obsInsert s.observed d.status, lsUpdate s d⟩,
         some (AwaitOutcome.terminated
           (preExecOnly (obsInsert s.observed d.status)))) := by
  unfold awaitStep
  rw [if_neg (by simp [h2]), if_neg (by simp [h2]), if_neg (by simp [h2]),
    if_pos rfl]

theorem awaitRun_nonterminal_then_cancel (d : WDesc) :
    ∀ (pre : List WDesc) (s : WatcherSt),
      (∀ p ∈ pre, p.status ≠ "SUCCEEDED" ∧ p.status ≠ "FAILED") →
      d.status ≠ "SUCCEEDED" → d.status ≠ "FAILED" →
      (awaitRun s (pre.map (fun p => (p, false)) ++ [(d, true)])).2 =
        some (AwaitOutcome.terminated
          (preExecOnly (obsAll s.observed (pre ++ [d])))) := by
  intro pre
  induction pre with
  | nil =>
    intro s _ hd1 hd2
    simp only [List.map_nil, List.nil_append, awaitRun]
    rw [awaitStep_terminating s d hd1 hd2]
    rfl
  | cons p pre ih =>
    intro s hpre hd1 hd2
    have hp := hpre p (List.mem_cons_self p pre)
    simp only [List.map_cons, List.cons_append, awaitRun]
    rw [awaitStep_nonterminal s p hp.1 hp.2]
    dsimp only
    exact ih ⟨obsInsert s.observed p.status, lsUpdate s p⟩
      (fun q hq => hpre q (List.mem_cons_of_mem p hq)) hd1 hd2

/-- C4: if `terminating()` becomes true before a terminal status is returned
(scripted as a prefix of non-terminal descriptions with `terminating()`
false, then one more non-terminal description with `terminating()` true),
the watcher raises TERMINATED whose quiet flag is true iff the accumulated
observed-status set contains nothing beyond the pre-execution states
SUBMITTED, PENDING, RUNNABLE, STARTING; in particular quiet is false
whenever RUNNING was ever observed.  (Reaching the TERMINATED outcome in the
code happens right after the `aws_batch.terminate_job` request, line 392.) -/
theorem awaitRun_cancellation_quiet (s : WatcherSt) (pre : List WDesc)
    (d : WDesc)
    (hpre : ∀ p ∈ pre, p.status ≠ "SUCCEEDED" ∧ p.status ≠ "FAILED")
    (hd1 : d.status ≠ "SUCCEEDED") (hd2 : d.status ≠ "FAILED") :
    (awaitRun s (pre.map (fun p => (p, false)) ++ [(d, true)])).2 =
      some (AwaitOutcome.terminated
        (preExecOnly (obsAll s.observed (pre ++ [d])))) ∧
    (("RUNNING" ∈ s.observed ∨ "RUNNING" ∈ (pre ++ [d]).map WDesc.status) →
      preExecOnly (obsAll s.observed (pre ++ [d])) = false) := by
  refine ⟨awaitRun_nonterminal_then_cancel d pre s hpre hd1 hd2, ?_⟩
  intro hr
  apply preExecOnly_false_of_running
  exact (obsAll_mem "RUNNING" (pre ++ [d]) s.observed).mpr hr

/-- Witness for `awaitRun_cancellation_quiet`: statuses SUBMITTED, PENDING
followed by cancellation before RUNNING was observed give TERMINATED with
quiet = true. -/
theorem awaitRun_cancellation_quiet_witness :
    (awaitRun initWatcherSt
      ([wdOf "SUBMITTED", wdOf "PENDING"].map (fun p => (p, false))
        ++ [(wdOf "PENDING", true)])).2
      = some (AwaitOutcome.terminated true) := by
  rw [(awaitRun_cancellation_quiet initWatcherSt
    [wdOf "SUBMITTED", wdOf "PENDING"] (wdOf "PENDING")
    (by decide) (by decide) (by decide)).1]
  decide

/-- Sanity check from the spec's scripted sequence: SUBMITTED, RUNNABLE,
STARTING, RUNNING, then FAILED with a "Host EC2 ... terminated" statusReason
is classified INTERRUPTED, not plain failure. -/
theorem awaitRun_hostec2_script :
    (awaitRun initWatcherSt
      [(wdOf "SUBMITTED", false), (wdOf "RUNNABLE", false),
       (wdOf "STARTING", false), (wdOf "RUNNING", false),
       (⟨"FAILED", some "Host EC2 instance i-0abc terminated", none⟩,
        false)]).2
      = some AwaitOutcome.interrupted := by decide

/-- Sanity check from the spec's scripted sequence: SUBMITTED, RUNNING,
SUCCEEDED gives success with exit code 0. -/
theorem awaitRun_succeeded_script :
    (awaitRun initWatcherSt
      [(wdOf "SUBMITTED", false), (wdOf "RUNNING", false),
       (wdOf "SUCCEEDED", false)]).2 = some (AwaitOutcome.exited 0) := by
  decide

theorem gateRun_spacing_aux (period : Nat) :
    ∀ (evs : List GateEvent) (last : Nat),
      List.Chain' (fun g1 g2 => g1.2 + period ≤ g2.1)
        (gateRun period last evs).2 ∧
      ∀ g ∈ ((gateRun period last evs).2).head?, last + period ≤ g.1 := by
  intro evs
  induction evs with
  | nil =>
    intro last
    exact ⟨List.chain'_nil, by intro g hg; cases hg⟩
  | cons e es ih =>
    intro last
    cases hc : gateCheck period last e.checkTime e.term with
    | granted =>
      have hgr : last + period ≤ e.checkTime := by
        unfold gateCheck at hc
        split at hc
        · cases hc
        · split at hc
          next h => exact h
          next => cases hc
      simp only [gateRun, hc]
      refine ⟨?_, ?_⟩
      · rw [List.chain'_cons']
        exact ⟨(ih e.recordTime).2, (ih e.recordTime).1⟩
      · intro g hg
        simp only [List.head?_cons, Option.mem_def, Option.some.injEq] at hg
        rw [← hg]
        exact hgr
    | cancelled =>
      simp only [gateRun, hc]
      exact ih last
    | retry =>
      simp only [gateRun, hc]
      exact ih last

/-- C8: across any sequence of throttle acquisitions from one process, any
two consecutive granted submissions are separated by at least
`submit_period`: the recorded timestamp of the earlier grant plus the period
is at most the check time of the later grant; and an acquisition for which
not enough time has elapsed yields `retry` (the caller releases the lock,
sleeps `submit_period / 4` outside it, and tries again) rather than a
submission. -/
theorem submit_rate_limit_spacing (period last : Nat) (evs : List GateEvent) :
    List.Chain' (fun g1 g2 => g1.2 + period ≤ g2.1)
      (gateRun period last evs).2 ∧
    ∀ (l now : Nat), now < l + period →
      gateCheck period l now false = GateOut.retry := by
  refine ⟨(gateRun_spacing_aux period evs last).1, ?_⟩
  intro l now h
  unfold gateCheck
  rw [if_neg (by simp), if_neg (by omega)]

/-- Witness for `submit_rate_limit_spacing`: with period 10 and grants
recorded at 13 and 25, the intermediate attempt at time 20 is a retry and
the granted submissions are spaced by at least the period. -/
theorem submit_rate_limit_spacing_witness :
    (gateRun 10 0 [⟨12, false, 13⟩, ⟨20, false, 20⟩, ⟨24, false, 25⟩]).2
      = [(12, 13), (24, 25)] ∧
    List.Chain' (fun g1 g2 => g1.2 + 10 ≤ g2.1)
      (gateRun 10 0 [⟨12, false, 13⟩, ⟨20, false, 20⟩, ⟨24, false, 25⟩]).2 ∧
    gateCheck 10 13 20 false = GateOut.retry :=
  ⟨by decide,
   (submit_rate_limit_spacing 10 0
     [⟨12, false, 13⟩, ⟨20, false, 20⟩, ⟨24, false, 25⟩]).1,
   (submit_rate_limit_spacing 10 0 []).2 13 20 (by decide)⟩

theorem yieldedEvents_aux (s : FollowerSt) :
    ∀ (pages : List (List LogEvent)) (acc : List LogEvent),
      pages.foldl (fun acc page => acc ++ yieldPage s.newestEventIds page) acc
        = acc ++ (concatAll pages).filter
            (fun e => !(s.newestEventIds.contains e.eventId)) := by
  intro pages
  induction pages with
  | nil => intro acc; simp [concatAll]
  | cons p ps ih =>
    intro acc
    simp only [List.foldl_cons, concatAll, List.filter_append]
    rw [ih]
    simp [yieldPage, List.append_assoc]

theorem yieldedEvents_eq (s : FollowerSt) (pages : List (List LogEvent)) :
    yieldedEvents s pages = (concatAll pages).filter
      (fun e => !(s.newestEventIds.contains e.eventId)) := by
  unfold yieldedEvents
  rw [yieldedEvents_aux]
  simp

theorem new_events_fst (s : FollowerSt) (f : Fetch) :
    (new_events s f).1 = yieldedEvents s f.pages := by
  unfold new_events
  split
  · rfl
  · split
    · rfl
    · rfl

/-- C9: when the backing log stream does not yet exist — the very first
`filter_log_events` request raises `ResourceNotFoundException`, so no page
was fetched — `new_events()` yields nothing and returns cleanly, leaving the
cursor state exactly unchanged (the exception is caught, not propagated to
the caller). -/
theorem new_events_stream_not_found (s : FollowerSt) :
    new_events s ⟨[], true⟩ = ([], s) := rfl

/-- C10: a `new_events()` call that yields no events (in particular an early
return because the stream does not exist) leaves `_newest_timestamp` and
`_newest_event_ids` exactly unchanged; the cursor changes only when at least
one event was yielded, and whenever a completed (non-interrupted) call
yields events, `_newest_timestamp` becomes the maximum yielded timestamp and
`_newest_event_ids` becomes the ids of yielded events at that timestamp. -/
theorem new_events_cursor_frame (s : FollowerSt) (f : Fetch) :
    ((new_events s f).1 = [] → (new_events s f).2 = s) ∧
    (f.notFoundInterrupt = true → (new_events s f).2 = s) ∧
    ((new_events s f).2 ≠ s →
      (new_events s f).1 ≠ [] ∧
      (new_events s f).2.newestTimestamp
        = some (maxTs (new_events s f).1) ∧
      (new_events s f).2.newestEventIds =
        ((new_events s f).1.filter
          (fun e => e.timestamp == maxTs (new_events s f).1)).map
          (fun e => e.eventId)) ∧
    (f.notFoundInterrupt = false → (new_events s f).1 ≠ [] →
      (new_events s f).2.newestTimestamp
        = some (maxTs (new_events s f).1) ∧
      (new_events s f).2.newestEventIds =
        ((new_events s f).1.filter
          (fun e => e.timestamp == maxTs (new_events s f).1)).map
          (fun e => e.eventId)) := by
  by_cases hnf : f.notFoundInterrupt = true
  · have hchar : new_events s f = (yieldedEvents s f.pages, s) := by
      unfold new_events
      rw [if_pos hnf]
    rw [hchar]
    exact ⟨fun _ => rfl, fun _ => rfl, fun hne => absurd rfl hne,
      fun h => absurd hnf (by simp [h])⟩
  · have hnf2 : f.notFoundInterrupt = false := by
      cases hh : f.notFoundInterrupt with
      | false => rfl
      | true => exact absurd hh hnf
    by_cases hy : (yieldedEvents s f.pages).isEmpty = true
    · have hchar : new_events s f = (yieldedEvents s f.pages, s) := by
        unfold new_events
        rw [if_neg (by simp [hnf2]), if_pos hy]
      rw [hchar]
      refine ⟨fun _ => rfl, fun _ => rfl, fun hne => absurd rfl hne, ?_⟩
      intro _ hne
      exact absurd (List.isEmpty_iff.mp hy) hne
    · have hchar : new_events s f =
          (yieldedEvents s f.pages,
           ⟨some (maxTs (yieldedEvents s f.pages)),
            ((yieldedEvents s f.pages).filter
              (fun e => e.timestamp == maxTs (yieldedEvents s f.pages))).map
              (fun e => e.eventId)⟩) := by
        unfold new_events
        rw [if_neg (by simp [hnf2]), if_neg hy]
      rw [hchar]
      refine ⟨?_, ?_, ?_, ?_⟩
      · intro he
        have he2 : yieldedEvents s f.pages = [] := he
        exact absurd (by rw [he2]; rfl) hy
      · intro hh
        exact absurd hh (by simp [hnf2])
      · intro _
        refine ⟨?_, rfl, rfl⟩
        intro he
        have he2 : yieldedEvents s f.pages = [] := he
        exact absurd (by rw [he2]; rfl) hy
      · intro _ _
        exact ⟨rfl, rfl⟩

/-- Witness for `new_events_cursor_frame`: a completed call yielding one
event at timestamp 3 moves the cursor to timestamp 3 with that event's id. -/
theorem new_events_cursor_frame_witness :
    (new_events followerInit ⟨[[⟨3, 1, "x"⟩]], false⟩).2.newestTimestamp
      = some 3 ∧
    (new_events followerInit ⟨[[⟨3, 1, "x"⟩]], false⟩).2.newestEventIds
      = [1] := by
  have h := (new_events_cursor_frame followerInit
    ⟨[[⟨3, 1, "x"⟩]], false⟩).2.2.2 rfl (by decide)
  refine ⟨?_, ?_⟩
  · rw [h.1]
    decide
  · rw [h.2]
    decide

/-- Per-call behaviour of `new_events()` from a cursor state `s` recording
timestamp `m` and event ids seen at `m`, against a stream with unique event
ids, where the service returns exactly the events with timestamp ≥ `m` (the
`startTime` filter) split into pages: (1) no yielded event has a
currently-recorded id, and every yielded event has timestamp ≥ `m`; (2)
every stream event with a strictly newer timestamp is yielded; (3) if every
visible event is at timestamp `m` with a recorded id the call yields the
empty sequence; (4) if the visible events are the recorded ones followed by
exactly the K unrecorded new events, the call yields exactly those K events,
each once, in order.  These conclusions are relative to the *current* id
set: the recorded-ids hypotheses fail across calls once a new event arrives
at the recorded timestamp, because the cursor update drops the earlier ids —
see `new_events_reyields_after_same_timestamp_arrival`. -/
theorem new_events_single_call_filter (s : FollowerSt) (f : Fetch)
    (stream : List LogEvent) (m : Nat)
    (hm : s.newestTimestamp = some m)
    (hids : (stream.map LogEvent.eventId).Nodup)
    (hrec : ∀ i ∈ s.newestEventIds,
      ∃ e ∈ stream, e.eventId = i ∧ e.timestamp = m)
    (hpages : concatAll f.pages = visibleEvents s stream) :
    ((∀ e ∈ (new_events s f).1,
        s.newestEventIds.contains e.eventId = false) ∧
      ∀ e ∈ (new_events s f).1, m ≤ e.timestamp) ∧
    (∀ e ∈ stream, m < e.timestamp → e ∈ (new_events s f).1) ∧
    ((∀ e ∈ stream, m ≤ e.timestamp →
        e.timestamp = m ∧ s.newestEventIds.contains e.eventId = true) →
      (new_events s f).1 = []) ∧
    (∀ olds news, visibleEvents s stream = olds ++ news →
      (∀ e ∈ olds, s.newestEventIds.contains e.eventId = true) →
      (∀ e ∈ news, s.newestEventIds.contains e.eventId = false) →
      (new_events s f).1 = news) := by
  have hfst : (new_events s f).1 = (visibleEvents s stream).filter
      (fun e => !(s.newestEventIds.contains e.eventId)) := by
    rw [new_events_fst, yieldedEvents_eq, hpages]
  have hvis_mem : ∀ e, e ∈ visibleEvents s stream ↔
      e ∈ stream ∧ m ≤ e.timestamp := by
    intro e
    unfold visibleEvents
    rw [hm]
    constructor
    · intro he
      have h2 := List.mem_filter.mp he
      exact ⟨h2.1, by simpa using h2.2⟩
    · intro he
      exact List.mem_filter.mpr ⟨he.1, by simpa using he.2⟩
  refine ⟨⟨?_, ?_⟩, ?_, ?_, ?_⟩
  · intro e he
    rw [hfst] at he
    have h2 := List.of_mem_filter he
    simpa using h2
  · intro e he
    rw [hfst] at he
    exact ((hvis_mem e).mp (List.mem_of_mem_filter he)).2
  · intro e he hlt
    rw [hfst]
    apply List.mem_filter.mpr
    refine ⟨(hvis_mem e).mpr ⟨he, Nat.le_of_lt hlt⟩, ?_⟩
    cases hc : s.newestEventIds.contains e.eventId with
    | false => rfl
    | true =>
      exfalso
      have hmem : e.eventId ∈ s.newestEventIds := List.mem_of_elem_eq_true hc
      obtain ⟨e2, he2, hid2, hts2⟩ := hrec e.eventId hmem
      have heq : e2 = e := List.inj_on_of_nodup_map hids he2 he hid2
      rw [heq] at hts2
      omega
  · intro hall
    rw [hfst]
    apply List.filter_eq_nil_iff.mpr
    intro e he
    have hvis := (hvis_mem e).mp he
    have h2 := (hall e hvis.1 hvis.2).2
    simp [h2]
    exact List.mem_of_elem_eq_true h2
  · intro olds news hdecomp holds hnews
    rw [hfst, hdecomp, List.filter_append]
    rw [List.filter_eq_nil_iff.mpr
        (by intro e he; simp [holds e he]
            exact List.mem_of_elem_eq_true (holds e he)),
      List.filter_eq_self.mpr
        (by intro e he; simp [hnews e he]
            intro hc
            have h3 : s.newestEventIds.contains e.eventId = true :=
              List.elem_eq_true_of_mem hc
            rw [hnews e he] at h3
            cases h3)]
    simp

/-- Instance of `new_events_single_call_filter` showing its hypotheses are
satisfiable: one already-seen event at timestamp 5 and one new event at
timestamp 7; the call yields exactly the new event, once. -/
theorem new_events_single_call_filter_check :
    (new_events ⟨some 5, [1]⟩
      ⟨[[⟨5, 1, "a"⟩, ⟨7, 2, "b"⟩]], false⟩).1 = [⟨7, 2, "b"⟩] :=
  (new_events_single_call_filter ⟨some 5, [1]⟩
    ⟨[[⟨5, 1, "a"⟩, ⟨7, 2, "b"⟩]], false⟩
    [⟨5, 1, "a"⟩, ⟨7, 2, "b"⟩] 5 rfl (by decide) (by decide)
    (by decide)).2.2.2
    [⟨5, 1, "a"⟩] [⟨7, 2, "b"⟩] (by decide) (by decide) (by decide)

/-- C5 (code bug): the claimed invariant — an event already yielded by a
previous `new_events()` call is never yielded again, and repeated calls with
no new underlying events each yield the empty sequence — is violated by the
code.  Line 439 of cli_submit.py replaces `_newest_event_ids` wholesale with
the ids of the current call's yielded events at the maximum yielded
timestamp, dropping previously recorded ids at that same timestamp.  Trace:
call 1 against stream `[e1]` (`e1` at timestamp 5, id 1) yields `e1` and
records ids `[1]` at timestamp 5; a genuinely new event `e2` (timestamp 5,
id 2) then arrives, and call 2 yields exactly `e2` but replaces the recorded
ids with `[2]`; call 3, with no new underlying events, re-yields `e1`.  Each
call's fetch below equals `visibleEvents` of its cursor against the stream
at that time (inclusive `startTime`), so the service behaves exactly per its
contract and the re-yield is the follower's own doing. -/
theorem new_events_reyields_after_same_timestamp_arrival :
    visibleEvents followerInit [⟨5, 1, "a"⟩] = [⟨5, 1, "a"⟩] ∧
    new_events followerInit ⟨[[⟨5, 1, "a"⟩]], false⟩
      = ([⟨5, 1, "a"⟩], ⟨some 5, [1]⟩) ∧
    visibleEvents ⟨some 5, [1]⟩ [⟨5, 1, "a"⟩, ⟨5, 2, "b"⟩]
      = [⟨5, 1, "a"⟩, ⟨5, 2, "b"⟩] ∧
    new_events ⟨some 5, [1]⟩ ⟨[[⟨5, 1, "a"⟩, ⟨5, 2, "b"⟩]], false⟩
      = ([⟨5, 2, "b"⟩], ⟨some 5, [2]⟩) ∧
    visibleEvents ⟨some 5, [2]⟩ [⟨5, 1, "a"⟩, ⟨5, 2, "b"⟩]
      = [⟨5, 1, "a"⟩, ⟨5, 2, "b"⟩] ∧
    new_events ⟨some 5, [2]⟩ ⟨[[⟨5, 1, "a"⟩, ⟨5, 2, "b"⟩]], false⟩
      = ([⟨5, 1, "a"⟩], ⟨some 5, [1]⟩) := by
  decide
